import Mathlib

/-!
Verification of the SPV (simplified payment verification) simulator backend.

The development shallowly embeds `src/backend.py`: the double-SHA-256
fingerprint function, the `MerkleTree` construction (`_build_tree_levels`),
Merkle-proof extraction (`get_proof`), the `Block` header, and the SPV
client's `verify_transaction` loop.  Bytes are `List Nat` (each entry a byte
value), 32-bit words are `Nat` reduced modulo `4294967296`, and Python's
hex-digest strings are Lean `String`s.  Python's in-place padding of odd
levels (which also mutates the stored level-0 list aliased with `txids`) is
embedded by storing the padded level, exactly as the Python object ends up.
-/

namespace SPV

/-- Right rotation of a 32-bit word held in a `Nat`. -/
def rotr (n x : Nat) : Nat := ((x >>> n) ||| (x <<< (32 - n))) % 4294967296

/-- Big-endian byte list (length `k`) of a natural number. -/
def beBytes : Nat → Nat → List Nat
  | 0, _ => []
  | k+1, n => beBytes k (n / 256) ++ [n % 256]

/-- Group a byte list into big-endian 32-bit words (any trailing partial
group is dropped; inputs are always a multiple of four bytes). -/
def bytesToWords : List Nat → List Nat
  | b0 :: b1 :: b2 :: b3 :: rest =>
      (((b0 * 256 + b1) * 256 + b2) * 256 + b3) :: bytesToWords rest
  | _ => []

/-- SHA-256 round constants (FIPS 180-4, written in decimal). -/
def k256 : List Nat :=
  [1116352408, 1899447441, 3049323471, 3921009573, 961987163,
   1508970993, 2453635748, 2870763221, 3624381080, 310598401,
   607225278, 1426881987, 1925078388, 2162078206, 2614888103,
   3248222580, 3835390401, 4022224774, 264347078, 604807628,
   770255983, 1249150122, 1555081692, 1996064986, 2554220882,
   2821834349, 2952996808, 3210313671, 3336571891, 3584528711,
   113926993, 338241895, 666307205, 773529912, 1294757372,
   1396182291, 1695183700, 1986661051, 2177026350, 2456956037,
   2730485921, 2820302411, 3259730800, 3345764771, 3516065817,
   3600352804, 4094571909, 275423344, 430227734, 506948616,
   659060556, 883997877, 958139571, 1322822218, 1537002063,
   1747873779, 1955562222, 2024104815, 2227730452, 2361852424,
   2428436474, 2756734187, 3204031479, 3329325298]

/-- SHA-256 initial hash values (FIPS 180-4, written in decimal). -/
def h256init : List Nat :=
  [1779033703, 3144134277, 1013904242, 2773480762,
   1359893119, 2600822924, 528734635, 1541459225]

/-- Message-schedule sigma-0. -/
def ssig0 (x : Nat) : Nat := rotr 7 x ^^^ rotr 18 x ^^^ (x >>> 3)

/-- Message-schedule sigma-1. -/
def ssig1 (x : Nat) : Nat := rotr 17 x ^^^ rotr 19 x ^^^ (x >>> 10)

/-- Extend a 16-word block schedule by `n` further words. -/
def extendSchedule : List Nat → Nat → List Nat
  | w, 0 => w
  | w, n+1 =>
      let t := (ssig1 (w.getD (w.length - 2) 0) + w.getD (w.length - 7) 0 +
                ssig0 (w.getD (w.length - 15) 0) + w.getD (w.length - 16) 0) % 4294967296
      extendSchedule (w ++ [t]) n

/-- The eight 32-bit working variables of the SHA-256 compression loop. -/
structure SHAState where
  a : Nat
  b : Nat
  c : Nat
  d : Nat
  e : Nat
  f : Nat
  g : Nat
  h : Nat

/-- One round of the SHA-256 compression function. -/
def shaRound (s : SHAState) (kw : Nat × Nat) : SHAState :=
  let bigS1 := rotr 6 s.e ^^^ rotr 11 s.e ^^^ rotr 25 s.e
  let ch := (s.e &&& s.f) ^^^ ((s.e ^^^ 4294967295) &&& s.g)
  let t1 := (s.h + bigS1 + ch + kw.1 + kw.2) % 4294967296
  let bigS0 := rotr 2 s.a ^^^ rotr 13 s.a ^^^ rotr 22 s.a
  let mj := (s.a &&& s.b) ^^^ (s.a &&& s.c) ^^^ (s.b &&& s.c)
  let t2 := (bigS0 + mj) % 4294967296
  ⟨(t1 + t2) % 4294967296, s.a, s.b, s.c, (s.d + t1) % 4294967296, s.e, s.f, s.g⟩

/-- Compress one 16-word block into the running eight-word hash value. -/
def compressBlock (hs : List Nat) (block16 : List Nat) : List Nat :=
  let w := extendSchedule block16 48
  let s0 : SHAState :=
    ⟨hs.getD 0 0, hs.getD 1 0, hs.getD 2 0, hs.getD 3 0,
     hs.getD 4 0, hs.getD 5 0, hs.getD 6 0, hs.getD 7 0⟩
  let s := List.foldl shaRound s0 (k256.zip w)
  [(hs.getD 0 0 + s.a) % 4294967296, (hs.getD 1 0 + s.b) % 4294967296,
   (hs.getD 2 0 + s.c) % 4294967296, (hs.getD 3 0 + s.d) % 4294967296,
   (hs.getD 4 0 + s.e) % 4294967296, (hs.getD 5 0 + s.f) % 4294967296,
   (hs.getD 6 0 + s.g) % 4294967296, (hs.getD 7 0 + s.h) % 4294967296]

/-- Fold the compression function over a word stream, 16 words per block
(the padded stream is always an exact multiple of 16 words). -/
def processBlocks : List Nat → List Nat → List Nat
  | hs, w0 :: w1 :: w2 :: w3 :: w4 :: w5 :: w6 :: w7 ::
        w8 :: w9 :: w10 :: w11 :: w12 :: w13 :: w14 :: w15 :: ws =>
      processBlocks
        (compressBlock hs
          [w0, w1, w2, w3, w4, w5, w6, w7, w8, w9, w10, w11, w12, w13, w14, w15])
        ws
  | hs, _ => hs

/-- SHA-256 padding: append `0x80`, zeros to 56 mod 64, and the big-endian
64-bit bit length. -/
def padMessage (msg : List Nat) : List Nat :=
  let L := msg.length
  let zeros := (120 - ((L + 1) % 64)) % 64
  msg ++ [128] ++ List.replicate zeros 0 ++ beBytes 8 (8 * L)

/-- SHA-256 of a byte list, as the 32-byte digest (Python's `.digest()`). -/
def sha256digest (msg : List Nat) : List Nat :=
  (processBlocks h256init (bytesToWords (padMessage msg))).flatMap (beBytes 4)

/-- Lower-case hex character for a value below 16. -/
def hexChar (n : Nat) : Char := if n < 10 then Char.ofNat (48 + n) else Char.ofNat (87 + n)

/-- Lower-case hex string of a byte list (Python's `.hexdigest()` rendering). -/
def hexOfBytes (bs : List Nat) : String :=
  String.mk (bs.flatMap (fun b => [hexChar (b / 16), hexChar (b % 16)]))

/-- UTF-8 encoding of one character (Python `str.encode` semantics). -/
def utf8Char (c : Char) : List Nat :=
  let n := c.toNat
  if n < 128 then [n]
  else if n < 2048 then [192 + n / 64, 128 + n % 64]
  else if n < 65536 then [224 + n / 4096, 128 + n / 64 % 64, 128 + n % 64]
  else [240 + n / 262144, 128 + n / 4096 % 64, 128 + n / 64 % 64, 128 + n % 64]

/-- UTF-8 encoding of a string (Python `data.encode('utf-8')`). -/
def utf8Encode (s : String) : List Nat := s.data.flatMap utf8Char

/-- Python's `double_sha256` argument: either `bytes` or `str`. -/
inductive PyData where
  | bytes (b : List Nat) : PyData
  | str (s : String) : PyData

/-- `double_sha256(data)` from `backend.py`: encode text to UTF-8 bytes,
`hash1 = sha256(data).digest()`, `hash2 = sha256(hash1).hexdigest()`. -/
def double_sha256 (data : PyData) : String :=
  let dataBytes := match data with
    | PyData.bytes b => b
    | PyData.str s => utf8Encode s
  let hash1 := sha256digest dataBytes
  let hash2 := hexOfBytes (sha256digest hash1)
  hash2

/-- A `Transaction` from `backend.py`: raw data string and its txid
(`double_sha256(data)` at construction). -/
structure Transaction where
  data : String
  txid : String
deriving DecidableEq

/-- `Transaction.__init__`: the txid is the double hash of the data string. -/
def Transaction.ofData (s : String) : Transaction :=
  ⟨s, double_sha256 (PyData.str s)⟩

/-- Python's in-place `current_level.append(current_level[-1])` when the
level's length is odd: the stored level ends up with its last entry
duplicated. -/
def padEven (l : List String) : List String :=
  if l.length % 2 = 1 then l ++ [l.getLastD ""] else l

/-- One `for i in range(0, len(current_level), 2)` pass of
`_build_tree_levels`: parent `i` is `double_sha256(level[2i] + level[2i+1])`.
The level is always even-length when this runs (it was just padded). -/
def pairHashLevel (cur : List String) : List String :=
  (List.range (cur.length / 2)).map
    (fun i => double_sha256 (PyData.str (cur.getD (2 * i) "" ++ cur.getD (2 * i + 1) "")))

/-- The `while len(current_level) > 1` loop of `_build_tree_levels`, started
at `cur`, with an explicit iteration budget (the level length strictly
shrinks every pass, so a budget of the starting length always suffices; see
`buildFrom_eq`).  Each stored level is the list object as it exists after
the whole build: a level that entered the loop with odd length carries its
in-place padding duplicate. -/
def buildSteps : Nat → List String → List (List String)
  | 0, cur => [cur]
  | fuel + 1, cur =>
      if cur.length ≤ 1 then [cur]
      else padEven cur :: buildSteps fuel (pairHashLevel (padEven cur))

/-- The level structure produced by the build loop from a starting level. -/
def buildFrom (cur : List String) : List (List String) :=
  buildSteps cur.length cur

/-- `MerkleTree._build_tree_levels(leaves)`. -/
def build_tree_levels (leaves : List String) : List (List String) :=
  if leaves.isEmpty then [] else buildFrom leaves

/-- The `MerkleTree` object state after `__init__`. -/
structure MerkleTree where
  txids : List String
  tree_levels : List (List String)
  root : Option String
deriving DecidableEq

/-- `MerkleTree.__init__(transactions)`.  `txids` is the same list object
that becomes level 0 of the tree, so after an odd-length build it carries
the padding duplicate (`headD` keeps the original list only when the tree
is empty, exactly as in Python where no padding ever ran). -/
def MerkleTree.ofTransactions (ts : List Transaction) : MerkleTree :=
  let txids0 := ts.map Transaction.txid
  let levels := build_tree_levels txids0
  ⟨levels.headD txids0, levels, levels.getLast?.bind List.head?⟩

/-- One iteration of the `for level in range(len(self.tree_levels) - 1)`
body of `get_proof`: possibly one `(sibling, side)` entry. -/
def proofStep (lvl : List String) (idx : Nat) : List (String × String) :=
  if lvl.length % 2 = 1 ∧ idx = lvl.length - 1 then []
  else if idx % 2 = 0 then [(lvl.getD (idx + 1) "", "right")]
  else [(lvl.getD (idx - 1) "", "left")]

/-- The whole proof-collection loop of `get_proof`, over the non-root
levels, with `current_index := current_index // 2` after every level. -/
def proofLoop : List (List String) → Nat → List (String × String)
  | [], _ => []
  | lvl :: rest, idx => proofStep lvl idx ++ proofLoop rest (idx / 2)

/-- `MerkleTree.get_proof(target_txid)`: first-match index lookup in
`self.txids` (`list.index`), `None` when absent, else the collected proof. -/
def MerkleTree.get_proof (t : MerkleTree) (target_txid : String) :
    Option (List (String × String)) :=
  match t.txids.findIdx? (fun x => x == target_txid) with
  | none => none
  | some i => some (proofLoop t.tree_levels.dropLast i)

/-- The block header dictionary `{"merkle_root": root}`. -/
structure BlockHeader where
  merkle_root : Option String
deriving DecidableEq

/-- `Block.__init__`: a Merkle tree over the transactions plus a header
holding only its root. -/
structure Block where
  merkle_tree : MerkleTree
  header : BlockHeader

/-- `Block` built from a transaction list. -/
def Block.ofTransactions (ts : List Transaction) : Block :=
  let t := MerkleTree.ofTransactions ts
  ⟨t, ⟨t.root⟩⟩

/-- The `SPVClient` state that matters for verification: the stored header
(`None` before `set_header`).  Logging is an external side channel and is
not modelled. -/
structure SPVClient where
  block_header : Option BlockHeader

/-- `SPVClient.set_header(header)`. -/
def SPVClient.set_header (_ : SPVClient) (h : BlockHeader) : SPVClient :=
  ⟨some h⟩

/-- The `for sibling_hash, side in proof` loop of `verify_transaction`:
side `"right"` hashes `acc + sibling`, anything else hashes
`sibling + acc`. -/
def verifyLoop (acc : String) : List (String × String) → String
  | [] => acc
  | (sibling_hash, side) :: rest =>
      verifyLoop
        (double_sha256 (PyData.str
          (if side == "right" then acc ++ sibling_hash else sibling_hash ++ acc)))
        rest

/-- `SPVClient.verify_transaction(txid, proof)`: reject when no header is
stored or the proof is `None`; otherwise fold the proof and compare the
recomputed root with the header's root (a Python `str == None` comparison
is `False`, hence the `Option` equality). -/
def SPVClient.verify_transaction (c : SPVClient) (txid : String)
    (proof : Option (List (String × String))) : Bool :=
  match c.block_header with
  | none => false
  | some header =>
    match proof with
    | none => false
    | some p => some (verifyLoop txid p) == header.merkle_root

/-- Modelled from the spec's wording of verification (§4.4): a left-to-right
fold whose accumulator starts at the leaf fingerprint; a RIGHT entry hashes
`acc ++ sibling`, any other side hashes `sibling ++ acc`.  Used to compare
the spec's description against `verify_transaction`. -/
def specFoldAccumulate (leafFingerprint : String) (proof : List (String × String)) : String :=
  List.foldl
    (fun acc e =>
      if e.2 == "right" then double_sha256 (PyData.str (acc ++ e.1))
      else double_sha256 (PyData.str (e.1 ++ acc)))
    leafFingerprint proof

/-- The level object as it is stored in `tree_levels` once the build has
moved past it: padded in place when it entered the pairing loop (length at
least two) with odd length, untouched otherwise. -/
def levelsHead (x : List String) : List String :=
  if x.length ≤ 1 then x else padEven x

/-- Shape of the stored levels of a tree built from a non-empty input:
all levels below the top are even (their padding persisted), the top has a
single entry, and each level above the bottom is the pair-hash of the
stored level below, itself stored padded. -/
def levelShape (t : MerkleTree) : Prop :=
  (∀ lvl ∈ t.tree_levels.dropLast, lvl.length % 2 = 0) ∧
  (t.tree_levels.getLastD []).length = 1 ∧
  (∀ k, k + 1 < t.tree_levels.length →
    (t.tree_levels.getD (k + 1) []).length =
      (let m := (t.tree_levels.getD k []).length / 2
       if m ≤ 1 then m else if m % 2 = 1 then m + 1 else m))

/-- Two concrete records, used as a witness input. -/
def twoRecords : List Transaction := [Transaction.ofData "a", Transaction.ofData "b"]

/-- Three concrete records (odd count), exercising the in-place padding of
the leaf level. -/
def threeRecords : List Transaction :=
  [Transaction.ofData "a", Transaction.ofData "b", Transaction.ofData "c"]

/-- Six concrete records, exercising the stored size of a padded middle
level (the level of three parents is stored duplicated to four). -/
def sixRecords : List Transaction :=
  ["a", "b", "c", "d", "e", "f"].map Transaction.ofData

/-- Two records with identical content, hence duplicate leaf
fingerprints. -/
def dupRecords : List Transaction := [Transaction.ofData "a", Transaction.ofData "a"]

/-! ### Helper lemmas -/

theorem headD_irrel {α : Type} (l : List α) (h : l ≠ []) (d d' : α) :
    l.headD d = l.headD d' := by
  cases l with
  | nil => exact absurd rfl h
  | cons a t => rfl

theorem getLastD_irrel {α : Type} (l : List α) (h : l ≠ []) (d d' : α) :
    l.getLastD d = l.getLastD d' := by
  cases l with
  | nil => exact absurd rfl h
  | cons a t => rw [List.getLastD_cons, List.getLastD_cons]

theorem getLastD_mem {α : Type} : ∀ (l : List α) (d : α), l ≠ [] → l.getLastD d ∈ l
  | [x], _, _ => by simp [List.getLastD_cons]
  | x :: y :: t, d, _ => by
      rw [List.getLastD_cons]
      exact List.mem_cons_of_mem x (getLastD_mem (y :: t) x (by simp))

theorem getD_zero_eq_headD {α : Type} (l : List α) (d : α) :
    l.getD 0 d = l.headD d := by
  cases l <;> rfl

theorem padEven_length (l : List String) :
    (padEven l).length = if l.length % 2 = 1 then l.length + 1 else l.length := by
  simp only [padEven]
  split <;> simp

theorem padEven_even (l : List String) : (padEven l).length % 2 = 0 := by
  rw [padEven_length]
  split <;> omega

theorem length_le_padEven (l : List String) : l.length ≤ (padEven l).length := by
  rw [padEven_length]
  split <;> omega

theorem padEven_getD (l : List String) (i : Nat) (hi : i < l.length) (d : String) :
    (padEven l).getD i d = l.getD i d := by
  simp only [padEven]
  split
  · simp [List.getElem?_append_left hi]
  · rfl

theorem mem_padEven (l : List String) (a : String) : a ∈ padEven l ↔ a ∈ l := by
  simp only [padEven]
  split
  · rename_i hodd
    have hne : l ≠ [] := by
      intro h
      rw [h] at hodd
      simp at hodd
    constructor
    · intro h
      rcases List.mem_append.mp h with h1 | h1
      · exact h1
      · have := List.mem_singleton.mp h1
        subst this
        exact getLastD_mem l "" hne
    · intro h
      exact List.mem_append.mpr (Or.inl h)
  · exact Iff.rfl

theorem pairHashLevel_length (l : List String) :
    (pairHashLevel l).length = l.length / 2 := by
  simp [pairHashLevel]

theorem pairHashLevel_getD (l : List String) (j : Nat) (hj : j < l.length / 2) :
    (pairHashLevel l).getD j "" =
      double_sha256 (PyData.str (l.getD (2 * j) "" ++ l.getD (2 * j + 1) "")) := by
  simp only [pairHashLevel, List.getD_eq_getElem?_getD, List.getElem?_map,
    List.getElem?_range hj]
  rfl

theorem pairHash_padEven_lt (cur : List String) (h : ¬ cur.length ≤ 1) :
    (pairHashLevel (padEven cur)).length < cur.length := by
  rw [pairHashLevel_length, padEven_length]
  split <;> omega

theorem pairHash_padEven_ne_nil (cur : List String) (h : ¬ cur.length ≤ 1) :
    pairHashLevel (padEven cur) ≠ [] := by
  have h1 := length_le_padEven cur
  have h2 := pairHashLevel_length (padEven cur)
  intro hnil
  rw [hnil] at h2
  simp only [List.length_nil] at h2
  omega

theorem buildSteps_congr (f1 f2 : Nat) (cur : List String)
    (h1 : cur.length ≤ f1) (h2 : cur.length ≤ f2) :
    buildSteps f1 cur = buildSteps f2 cur := by
  by_cases hc : cur.length ≤ 1
  · cases f1 <;> cases f2 <;> simp [buildSteps, hc]
  · cases f1 with
    | zero => omega
    | succ g1 =>
      cases f2 with
      | zero => omega
      | succ g2 =>
        simp only [buildSteps, if_neg hc]
        congr 1
        have hlt := pairHash_padEven_lt cur hc
        exact buildSteps_congr g1 g2 (pairHashLevel (padEven cur)) (by omega) (by omega)
termination_by cur.length
decreasing_by exact pairHash_padEven_lt cur (by assumption)

theorem buildFrom_eq (cur : List String) :
    buildFrom cur =
      if cur.length ≤ 1 then [cur]
      else padEven cur :: buildFrom (pairHashLevel (padEven cur)) := by
  by_cases hc : cur.length ≤ 1
  · rw [if_pos hc]
    show buildSteps cur.length cur = [cur]
    cases hn : cur.length with
    | zero => rfl
    | succ m =>
      rw [← hn]
      rw [hn]
      simp [buildSteps, hc]
  · rw [if_neg hc]
    show buildSteps cur.length cur = _
    cases hn : cur.length with
    | zero => omega
    | succ m =>
      simp only [buildSteps, if_neg hc]
      congr 1
      have hlt := pairHash_padEven_lt cur hc
      exact buildSteps_congr m _ (pairHashLevel (padEven cur)) (by omega) (Nat.le_refl _)

theorem buildFrom_ne_nil (cur : List String) : buildFrom cur ≠ [] := by
  rw [buildFrom_eq]
  split <;> simp

theorem buildFrom_head (cur : List String) :
    (buildFrom cur).headD [] = levelsHead cur := by
  rw [buildFrom_eq, levelsHead]
  split <;> simp

theorem levelsHead_getD (cur : List String) (j : Nat) (hj : j < cur.length) (d : String) :
    (levelsHead cur).getD j d = cur.getD j d := by
  rw [levelsHead]
  split
  · rfl
  · exact padEven_getD cur j hj d

theorem length_le_levelsHead (cur : List String) : cur.length ≤ (levelsHead cur).length := by
  rw [levelsHead]
  split
  · exact Nat.le_refl _
  · exact length_le_padEven cur

theorem verifyLoop_append (p q : List (String × String)) (acc : String) :
    verifyLoop acc (p ++ q) = verifyLoop (verifyLoop acc p) q := by
  induction p generalizing acc with
  | nil => rfl
  | cons e rest ih =>
    cases e with
    | mk sh side =>
      simp only [List.cons_append, verifyLoop]
      exact ih _

theorem buildFrom_getLast_length (cur : List String) (h : cur ≠ []) :
    ((buildFrom cur).getLastD []).length = 1 := by
  rw [buildFrom_eq]
  split
  · rename_i hc
    rw [List.getLastD_cons]
    have h0 : cur.length ≠ 0 := fun hz => h (List.length_eq_zero.mp hz)
    simp only [List.getLastD_nil]
    omega
  · rename_i hc
    rw [List.getLastD_cons,
      getLastD_irrel _ (buildFrom_ne_nil (pairHashLevel (padEven cur))) _ []]
    exact buildFrom_getLast_length (pairHashLevel (padEven cur))
      (pairHash_padEven_ne_nil cur hc)
termination_by cur.length
decreasing_by exact pairHash_padEven_lt cur (by assumption)

theorem proofStep_fold (p : List String) (i : Nat) (hev : p.length % 2 = 0)
    (hi : i < p.length) :
    verifyLoop (p.getD i "") (proofStep p i) = (pairHashLevel p).getD (i / 2) "" := by
  have h2 : i / 2 < p.length / 2 := by omega
  rw [pairHashLevel_getD p (i / 2) h2]
  simp only [proofStep]
  rw [if_neg (by omega : ¬ (p.length % 2 = 1 ∧ i = p.length - 1))]
  by_cases hpar : i % 2 = 0
  · rw [if_pos hpar]
    simp only [verifyLoop, beq_self_eq_true, if_true]
    have e1 : 2 * (i / 2) = i := by omega
    rw [e1]
  · rw [if_neg hpar]
    have hrl : (("left" : String) == "right") = false := by decide
    simp only [verifyLoop, hrl, Bool.false_eq_true, if_false]
    have e1 : 2 * (i / 2) = i - 1 := by omega
    have e2 : 2 * (i / 2) + 1 = i := by omega
    rw [e2, e1]

theorem buildFrom_fold (cur : List String) (i : Nat)
    (hi : i < ((buildFrom cur).headD []).length) :
    verifyLoop (((buildFrom cur).headD []).getD i "")
      (proofLoop (buildFrom cur).dropLast i)
      = ((buildFrom cur).getLastD []).getD 0 "" := by
  rw [buildFrom_head] at hi
  rw [buildFrom_head, buildFrom_eq]
  split
  · rename_i hc
    rw [levelsHead, if_pos hc] at hi
    rw [levelsHead, if_pos hc]
    simp only [List.dropLast_single, proofLoop, verifyLoop, List.getLastD_cons,
      List.getLastD_nil]
    have : i = 0 := by omega
    rw [this]
  · rename_i hc
    rw [levelsHead, if_neg hc] at hi
    rw [levelsHead, if_neg hc]
    rw [List.dropLast_cons_of_ne_nil (buildFrom_ne_nil (pairHashLevel (padEven cur)))]
    simp only [proofLoop]
    rw [verifyLoop_append]
    rw [proofStep_fold (padEven cur) i (padEven_even cur) hi]
    have hlen : i / 2 < (pairHashLevel (padEven cur)).length := by
      rw [pairHashLevel_length]
      have := padEven_even cur
      omega
    rw [← levelsHead_getD (pairHashLevel (padEven cur)) (i / 2) hlen "", ← buildFrom_head]
    rw [List.getLastD_cons,
      getLastD_irrel _ (buildFrom_ne_nil (pairHashLevel (padEven cur))) _ []]
    exact buildFrom_fold (pairHashLevel (padEven cur)) (i / 2)
      (by
        rw [buildFrom_head]
        exact Nat.lt_of_lt_of_le hlen (length_le_levelsHead _))
termination_by cur.length
decreasing_by exact pairHash_padEven_lt cur (by assumption)

theorem findIdx?_spec (l : List String) (t : String) (i : Nat)
    (h : l.findIdx? (fun x => x == t) = some i) :
    i < l.length ∧ l.getD i "" = t := by
  induction l generalizing i with
  | nil => simp at h
  | cons a rest ih =>
    rw [List.findIdx?_cons] at h
    by_cases ha : (a == t) = true
    · rw [if_pos ha] at h
      cases h
      exact ⟨by simp, eq_of_beq ha⟩
    · rw [if_neg ha, List.findIdx?_start_succ] at h
      rcases Option.map_eq_some'.mp h with ⟨k, hk, hik⟩
      rcases ih k hk with ⟨h1, h2⟩
      subst hik
      exact ⟨by simpa using h1, by simpa using h2⟩

theorem findIdx?_min (l : List String) (t : String) (i : Nat)
    (hi : i < l.length) (ht : l.getD i "" = t)
    (hmin : ∀ j, j < i → l.getD j "" ≠ t) :
    l.findIdx? (fun x => x == t) = some i := by
  induction l generalizing i with
  | nil => simp at hi
  | cons a rest ih =>
    rw [List.findIdx?_cons]
    cases i with
    | zero =>
      rw [List.getD_cons_zero] at ht
      rw [if_pos (beq_iff_eq.mpr ht)]
    | succ j =>
      have ha : ¬ (a == t) = true := by
        intro hb
        exact hmin 0 (Nat.succ_pos j) (by simpa using eq_of_beq hb)
      rw [if_neg ha, List.findIdx?_start_succ]
      rw [ih j (by simpa using hi) (by simpa using ht)
        (fun k hk => by simpa using hmin (k + 1) (by omega))]
      rfl

theorem findIdx?_of_mem (l : List String) (t : String) (h : t ∈ l) :
    ∃ i, l.findIdx? (fun x => x == t) = some i := by
  cases hf : l.findIdx? (fun x => x == t) with
  | some i => exact ⟨i, rfl⟩
  | none =>
    have := List.findIdx?_eq_none_iff.mp hf t h
    simp at this

theorem tree_levels_eq (ts : List Transaction) (h : ts ≠ []) :
    (MerkleTree.ofTransactions ts).tree_levels = buildFrom (ts.map Transaction.txid) := by
  cases ts with
  | nil => exact absurd rfl h
  | cons a l =>
    simp only [MerkleTree.ofTransactions, build_tree_levels, List.map_cons,
      List.isEmpty_cons, Bool.false_eq_true, if_false]

theorem tree_txids_eq (ts : List Transaction) (h : ts ≠ []) :
    (MerkleTree.ofTransactions ts).txids = (buildFrom (ts.map Transaction.txid)).headD [] := by
  cases ts with
  | nil => exact absurd rfl h
  | cons a l =>
    simp only [MerkleTree.ofTransactions, build_tree_levels, List.map_cons,
      List.isEmpty_cons, Bool.false_eq_true, if_false]
    exact headD_irrel _ (buildFrom_ne_nil _) _ []

theorem getLast?_bind_head? (L : List (List String)) (hL : L ≠ [])
    (hlast : L.getLastD [] ≠ []) :
    L.getLast?.bind List.head? = some ((L.getLastD []).getD 0 "") := by
  rcases Option.isSome_iff_exists.mp (List.getLast?_isSome.mpr hL) with ⟨x, hx⟩
  rw [hx]
  have hxD : L.getLastD [] = x := by rw [List.getLastD_eq_getLast?, hx]; rfl
  rw [hxD]
  rw [hxD] at hlast
  cases x with
  | nil => exact absurd rfl hlast
  | cons b t => rfl

theorem tree_root_eq (ts : List Transaction) (h : ts ≠ []) :
    (MerkleTree.ofTransactions ts).root =
      some (((buildFrom (ts.map Transaction.txid)).getLastD []).getD 0 "") := by
  have hmap : ts.map Transaction.txid ≠ [] := by simpa using h
  have hroot : (MerkleTree.ofTransactions ts).root =
      (buildFrom (ts.map Transaction.txid)).getLast?.bind List.head? := by
    cases ts with
    | nil => exact absurd rfl h
    | cons a l =>
      simp only [MerkleTree.ofTransactions, build_tree_levels, List.map_cons,
        List.isEmpty_cons, Bool.false_eq_true, if_false]
  rw [hroot]
  apply getLast?_bind_head? _ (buildFrom_ne_nil _)
  intro hnil
  have := buildFrom_getLast_length (ts.map Transaction.txid) hmap
  rw [hnil] at this
  simp at this

theorem mem_tree_txids (ts : List Transaction) (h : ts ≠ []) (tx : Transaction)
    (htx : tx ∈ ts) : tx.txid ∈ (MerkleTree.ofTransactions ts).txids := by
  rw [tree_txids_eq ts h, buildFrom_head, levelsHead]
  have hmem : tx.txid ∈ ts.map Transaction.txid := List.mem_map_of_mem _ htx
  split
  · exact hmem
  · exact (mem_padEven _ _).mpr hmem

theorem getD_mem {α : Type} (l : List α) (i : Nat) (d : α) (h : i < l.length) :
    l.getD i d ∈ l := by
  rw [List.getD_eq_getElem?_getD, List.getElem?_eq_getElem h]
  exact List.getElem_mem h

theorem mem_tree_txids_iff (ts : List Transaction) (h : ts ≠ []) (a : String) :
    a ∈ (MerkleTree.ofTransactions ts).txids ↔ a ∈ ts.map Transaction.txid := by
  rw [tree_txids_eq ts h, buildFrom_head, levelsHead]
  split
  · exact Iff.rfl
  · exact mem_padEven _ a

theorem buildFrom_dropLast_even (cur : List String) :
    ∀ lvl ∈ (buildFrom cur).dropLast, lvl.length % 2 = 0 := by
  rw [buildFrom_eq]
  split
  · simp
  · rename_i hc
    rw [List.dropLast_cons_of_ne_nil (buildFrom_ne_nil _)]
    intro lvl hm
    rcases List.mem_cons.mp hm with h1 | h1
    · subst h1
      exact padEven_even cur
    · exact buildFrom_dropLast_even (pairHashLevel (padEven cur)) lvl h1
termination_by cur.length
decreasing_by exact pairHash_padEven_lt cur (by assumption)

theorem buildFrom_succ_level (cur : List String) (k : Nat)
    (hk : k + 1 < (buildFrom cur).length) :
    (buildFrom cur).getD (k + 1) [] =
      levelsHead (pairHashLevel ((buildFrom cur).getD k [])) := by
  by_cases hc : cur.length ≤ 1
  · rw [buildFrom_eq, if_pos hc] at hk
    simp at hk
  · rw [buildFrom_eq, if_neg hc] at hk ⊢
    cases k with
    | zero =>
      simp only [List.getD_cons_succ, List.getD_cons_zero]
      rw [getD_zero_eq_headD]
      exact buildFrom_head _
    | succ k₀ =>
      simp only [List.getD_cons_succ]
      apply buildFrom_succ_level
      simpa using hk
termination_by cur.length
decreasing_by exact pairHash_padEven_lt cur (by assumption)

theorem levelsHead_pairHash_length (x : List String) :
    (levelsHead (pairHashLevel x)).length =
      (if x.length / 2 ≤ 1 then x.length / 2
       else if x.length / 2 % 2 = 1 then x.length / 2 + 1 else x.length / 2) := by
  rw [levelsHead]
  split
  · rename_i h1
    rw [pairHashLevel_length] at h1 ⊢
    rw [if_pos h1]
  · rename_i h1
    rw [pairHashLevel_length] at h1
    rw [padEven_length, pairHashLevel_length, if_neg h1]

theorem verifyLoop_eq_specFold (p : List (String × String)) (acc : String) :
    verifyLoop acc p = specFoldAccumulate acc p := by
  induction p generalizing acc with
  | nil => rfl
  | cons e rest ih =>
    cases e with
    | mk sh side =>
      simp only [verifyLoop, specFoldAccumulate, List.foldl_cons]
      have hstep : double_sha256 (PyData.str (if (side == "right") = true then acc ++ sh else sh ++ acc)) =
          (if (side == "right") = true then double_sha256 (PyData.str (acc ++ sh))
           else double_sha256 (PyData.str (sh ++ acc))) := by
        by_cases hs : (side == "right") = true
        · rw [if_pos hs, if_pos hs]
        · rw [if_neg hs, if_neg hs]
      rw [hstep]
      exact ih _

theorem verify_getProof_roundtrip (ts : List Transaction) (tx : Transaction)
    (h1 : ts ≠ []) (h2 : tx ∈ ts) :
    SPVClient.verify_transaction
      (SPVClient.set_header ⟨none⟩ (Block.ofTransactions ts).header)
      tx.txid
      ((Block.ofTransactions ts).merkle_tree.get_proof tx.txid) = true := by
  have hmem := mem_tree_txids ts h1 tx h2
  rcases findIdx?_of_mem _ _ hmem with ⟨i, hfi⟩
  rcases findIdx?_spec _ _ _ hfi with ⟨hlen, hval⟩
  simp only [Block.ofTransactions, SPVClient.set_header, SPVClient.verify_transaction,
    MerkleTree.get_proof, hfi]
  rw [tree_levels_eq ts h1, tree_root_eq ts h1]
  have hstart : tx.txid = ((buildFrom (ts.map Transaction.txid)).headD []).getD i "" := by
    rw [← tree_txids_eq ts h1]
    exact hval.symm
  rw [hstart]
  rw [buildFrom_fold _ i (by rw [← tree_txids_eq ts h1]; exact hlen)]
  simp

/-! ### Claims -/

/-- Claim C1: for every non-empty sequence of records and every record in
it, verifying that record's fingerprint with the proof returned by
`get_proof` for that fingerprint, against the tree's root (delivered via the
block header), returns success. -/
theorem claimC1_verify_getProof_succeeds (ts : List Transaction) (tx : Transaction)
    (h1 : ts ≠ []) (h2 : tx ∈ ts) :
    SPVClient.verify_transaction
      (SPVClient.set_header ⟨none⟩ (Block.ofTransactions ts).header)
      tx.txid
      ((Block.ofTransactions ts).merkle_tree.get_proof tx.txid) = true :=
  verify_getProof_roundtrip ts tx h1 h2

/-- Witness for C1 at a concrete two-record input. -/
theorem claimC1_witness :
    (twoRecords ≠ [] ∧ Transaction.ofData "a" ∈ twoRecords) ∧
    SPVClient.verify_transaction
      (SPVClient.set_header ⟨none⟩ (Block.ofTransactions twoRecords).header)
      (Transaction.ofData "a").txid
      ((Block.ofTransactions twoRecords).merkle_tree.get_proof
        (Transaction.ofData "a").txid) = true :=
  ⟨⟨by simp [twoRecords], by simp [twoRecords]⟩,
    claimC1_verify_getProof_succeeds twoRecords (Transaction.ofData "a")
      (by simp [twoRecords]) (by simp [twoRecords])⟩

/-- Claim C4: for a single-record set the tree has one level `[[txid]]`, the
root is that record's fingerprint itself (no hashing), `get_proof` returns
the empty proof, and verification against the root succeeds. -/
theorem claimC4_single_record (tx : Transaction) :
    (MerkleTree.ofTransactions [tx]).tree_levels = [[tx.txid]] ∧
    (MerkleTree.ofTransactions [tx]).root = some tx.txid ∧
    (MerkleTree.ofTransactions [tx]).get_proof tx.txid = some [] ∧
    SPVClient.verify_transaction
      (SPVClient.set_header ⟨none⟩ ⟨(MerkleTree.ofTransactions [tx]).root⟩)
      tx.txid ((MerkleTree.ofTransactions [tx]).get_proof tx.txid) = true := by
  have hbf : buildFrom [tx.txid] = [[tx.txid]] := by
    rw [buildFrom_eq]
    simp
  have hlv : (MerkleTree.ofTransactions [tx]).tree_levels = [[tx.txid]] := by
    rw [tree_levels_eq [tx] (by simp)]
    simp only [List.map_cons, List.map_nil]
    rw [hbf]
  have hroot : (MerkleTree.ofTransactions [tx]).root = some tx.txid := by
    rw [tree_root_eq [tx] (by simp)]
    simp only [List.map_cons, List.map_nil]
    rw [hbf]
    simp [List.getLastD_cons]
  have htxids : (MerkleTree.ofTransactions [tx]).txids = [tx.txid] := by
    rw [tree_txids_eq [tx] (by simp)]
    simp only [List.map_cons, List.map_nil]
    rw [hbf]
    rfl
  have hproof : (MerkleTree.ofTransactions [tx]).get_proof tx.txid = some [] := by
    simp only [MerkleTree.get_proof, htxids, hlv, List.findIdx?_cons, beq_self_eq_true,
      if_true]
    rfl
  refine ⟨hlv, hroot, hproof, ?_⟩
  rw [hroot]
  simp only [SPVClient.verify_transaction, SPVClient.set_header, hproof, verifyLoop]
  simp

/-- Claim C5: verification is the left-to-right fold described by the spec
(accumulator starts at the leaf fingerprint; RIGHT hashes `acc ++ sibling`,
otherwise `sibling ++ acc`), and with a header root present it succeeds
precisely when the folded accumulator equals the reference root. -/
theorem claimC5_fold_refinement (referenceRoot leafFingerprint : String)
    (proof : List (String × String)) :
    SPVClient.verify_transaction ⟨some ⟨some referenceRoot⟩⟩ leafFingerprint (some proof) =
      (specFoldAccumulate leafFingerprint proof == referenceRoot) ∧
    (SPVClient.verify_transaction ⟨some ⟨some referenceRoot⟩⟩ leafFingerprint (some proof) = true
      ↔ specFoldAccumulate leafFingerprint proof = referenceRoot) := by
  have he : SPVClient.verify_transaction ⟨some ⟨some referenceRoot⟩⟩ leafFingerprint (some proof) =
      (specFoldAccumulate leafFingerprint proof == referenceRoot) := by
    simp only [SPVClient.verify_transaction, verifyLoop_eq_specFold]
    rfl
  refine ⟨he, ?_⟩
  rw [he]
  exact beq_iff_eq

/-- Claim C6: the fingerprint function is deterministic, applies the
cryptographic digest twice in sequence (digest of digest, the outer one
rendered as a hex digest), and encodes text input to bytes with UTF-8
before digesting. -/
theorem claimC6_fingerprint :
    (∀ d1 d2 : PyData, d1 = d2 → double_sha256 d1 = double_sha256 d2) ∧
    (∀ b : List Nat,
      double_sha256 (PyData.bytes b) = hexOfBytes (sha256digest (sha256digest b))) ∧
    (∀ s : String,
      double_sha256 (PyData.str s) = double_sha256 (PyData.bytes (utf8Encode s))) :=
  ⟨fun _ _ h => by rw [h], fun _ => rfl, fun _ => rfl⟩

/-- Claim C8: with no stored header, `verify_transaction` returns failure
for every txid and every proof (so no hashing is ever consulted), and with
a header present a `None` proof yields failure rather than an exception. -/
theorem claimC8_missing_header_or_proof :
    (∀ (txid : String) (proof : Option (List (String × String))),
      SPVClient.verify_transaction ⟨none⟩ txid proof = false) ∧
    (∀ (h : BlockHeader) (txid : String),
      SPVClient.verify_transaction ⟨some h⟩ txid none = false) :=
  ⟨fun _ _ => rfl, fun _ _ => rfl⟩

/-- Claim C9: a root exists exactly for non-empty inputs; zero records give
a tree with no levels and no root, and `get_proof` then returns `None` for
every fingerprint. -/
theorem claimC9_root_iff_nonempty :
    (∀ ts : List Transaction,
      (MerkleTree.ofTransactions ts).root.isSome = true ↔ ts ≠ []) ∧
    (MerkleTree.ofTransactions []).tree_levels = [] ∧
    (MerkleTree.ofTransactions []).root = none ∧
    (∀ target : String, (MerkleTree.ofTransactions []).get_proof target = none) := by
  refine ⟨?_, rfl, rfl, fun _ => rfl⟩
  intro ts
  constructor
  · rintro hs rfl
    exact absurd hs (by decide)
  · intro hne
    rw [tree_root_eq ts hne]
    rfl

/-- Claim C7: `get_proof` locates the target among the level-0 entries with
first-match semantics (the lowest index matching the target determines the
emitted proof), and a fingerprint absent from the leaf set yields `None`,
never a partial proof. -/
theorem claimC7_first_match (ts : List Transaction) (target : String) :
    (target ∉ ts.map Transaction.txid →
      (MerkleTree.ofTransactions ts).get_proof target = none) ∧
    (∀ i, i < (MerkleTree.ofTransactions ts).txids.length →
      (MerkleTree.ofTransactions ts).txids.getD i "" = target →
      (∀ j, j < i → (MerkleTree.ofTransactions ts).txids.getD j "" ≠ target) →
      (MerkleTree.ofTransactions ts).get_proof target =
        some (proofLoop (MerkleTree.ofTransactions ts).tree_levels.dropLast i)) := by
  constructor
  · intro habs
    by_cases hts : ts = []
    · subst hts
      rfl
    · have hnm : target ∉ (MerkleTree.ofTransactions ts).txids := fun hmem =>
        habs ((mem_tree_txids_iff ts hts target).mp hmem)
      cases hf : (MerkleTree.ofTransactions ts).txids.findIdx? (fun x => x == target) with
      | none => simp only [MerkleTree.get_proof, hf]
      | some i =>
        rcases findIdx?_spec _ _ _ hf with ⟨hlen, hval⟩
        exact absurd (hval ▸ getD_mem _ i "" hlen) hnm
  · intro i hlen hval hmin
    simp only [MerkleTree.get_proof, findIdx?_min _ _ i hlen hval hmin]

set_option maxRecDepth 100000 in
/-- Witness for C7: two records with identical content; the absent
fingerprint `"zz"` gives `None`, and the duplicated fingerprint resolves to
index 0. -/
theorem claimC7_witness :
    ("zz" ∉ dupRecords.map Transaction.txid ∧
      (MerkleTree.ofTransactions dupRecords).get_proof "zz" = none) ∧
    (0 < (MerkleTree.ofTransactions dupRecords).txids.length ∧
      (MerkleTree.ofTransactions dupRecords).txids.getD 0 "" =
        (Transaction.ofData "a").txid ∧
      (MerkleTree.ofTransactions dupRecords).get_proof (Transaction.ofData "a").txid =
        some (proofLoop (MerkleTree.ofTransactions dupRecords).tree_levels.dropLast 0)) :=
  ⟨⟨by decide, (claimC7_first_match dupRecords "zz").1 (by decide)⟩,
   ⟨by decide, by decide,
    (claimC7_first_match dupRecords (Transaction.ofData "a").txid).2 0 (by decide)
      (by decide) (fun j hj => absurd hj (Nat.not_lt_zero j))⟩⟩

set_option maxRecDepth 200000 in
/-- Claim C2 concerns the proof for the last leaf of an odd-sized set.  On
the code, with three records, the stored leaf level is already padded to
four entries when `get_proof` runs, so the odd-level skip branch never
fires: the third leaf's proof has length 2, not 1, and its first entry is
the leaf's own duplicated fingerprint as a `right` sibling.  Verification
nevertheless succeeds. -/
theorem claimC2_code_eval :
    ((MerkleTree.ofTransactions threeRecords).get_proof
        (Transaction.ofData "c").txid).map List.length = some 2 ∧
    (((MerkleTree.ofTransactions threeRecords).get_proof
        (Transaction.ofData "c").txid).getD []).getD 0 ("", "") =
      ((Transaction.ofData "c").txid, "right") ∧
    SPVClient.verify_transaction
      (SPVClient.set_header ⟨none⟩ (Block.ofTransactions threeRecords).header)
      (Transaction.ofData "c").txid
      ((Block.ofTransactions threeRecords).merkle_tree.get_proof
        (Transaction.ofData "c").txid) = true := by
  refine ⟨by decide, by decide,
    verify_getProof_roundtrip threeRecords (Transaction.ofData "c")
      (by simp [threeRecords]) (by simp [threeRecords])⟩

set_option maxRecDepth 200000 in
/-- Claim C3 requires a defensive copy of the leaf sequence and a level 0
with one entry per input record.  On the code, `_build_tree_levels` pads
the very list stored as `txids` in place: with three records both the txid
list and the stored level 0 have four entries, the extra one a duplicate of
the last fingerprint. -/
theorem claimC3_code_eval :
    (MerkleTree.ofTransactions threeRecords).txids.length = 4 ∧
    ((MerkleTree.ofTransactions threeRecords).tree_levels.getD 0 []).length = 4 ∧
    threeRecords.length = 3 ∧
    (MerkleTree.ofTransactions threeRecords).txids.getD 3 "" =
      (MerkleTree.ofTransactions threeRecords).txids.getD 2 "" ∧
    (MerkleTree.ofTransactions threeRecords).txids ≠
      threeRecords.map Transaction.txid := by
  refine ⟨by decide, by decide, by decide, by decide, by decide⟩

/-- Counterexample to claim C10 as stated: with six records the stored
level above the bottom has four entries (the three parents plus their
persisted padding duplicate), not `6 / 2 = 3`. -/
theorem claimC10_counterexample :
    ¬ ((∀ lvl ∈ (MerkleTree.ofTransactions sixRecords).tree_levels.dropLast,
          lvl.length % 2 = 0) ∧
       (∀ k, k + 1 < (MerkleTree.ofTransactions sixRecords).tree_levels.length →
          ((MerkleTree.ofTransactions sixRecords).tree_levels.getD (k + 1) []).length =
            ((MerkleTree.ofTransactions sixRecords).tree_levels.getD k []).length / 2) ∧
       ((MerkleTree.ofTransactions sixRecords).tree_levels.getLastD []).length = 1) := by
  rintro ⟨-, hhalf, -⟩
  exact absurd (hhalf 0 (by decide)) (by decide)

/-- Claim C10, amended: after construction from a non-empty input, every
stored level except the top has even length, the top level has exactly one
entry, and each stored level above the bottom is the pair-hash of the
stored level below it, persisted with its own padding: its entry count is
half the level below when that half is at most one or even, and half plus
one when that half is odd and greater than one. -/
theorem claimC10_amended_shape (ts : List Transaction) (h : ts ≠ []) :
    levelShape (MerkleTree.ofTransactions ts) := by
  have hmap : ts.map Transaction.txid ≠ [] := by simpa using h
  rw [levelShape, tree_levels_eq ts h]
  refine ⟨buildFrom_dropLast_even _, buildFrom_getLast_length _ hmap, ?_⟩
  intro k hk
  rw [buildFrom_succ_level _ k hk, levelsHead_pairHash_length]

/-- Witness for the amended C10 at the six-record input. -/
theorem claimC10_witness :
    sixRecords ≠ [] ∧ levelShape (MerkleTree.ofTransactions sixRecords) :=
  ⟨by simp [sixRecords], claimC10_amended_shape sixRecords (by simp [sixRecords])⟩

end SPV
